import Mathlib

/-!
Verification of the display-state engine of the single-room conference
signage program (src/script.py).

Timestamps are modelled as whole seconds (an `Int`): the renderer calls the
engine with `datetime.now().replace(microsecond=0)`, so every `datetime`
the engine compares or subtracts is whole seconds, and
`int(delta.total_seconds())` is exact integer subtraction.  The `date`
field is modelled as a day index; the engine never reads it.
-/

/-- Event record, mirroring the dict built by `load_schedule` in
src/script.py (lines 87-96): `track` (`None` means the row had no track),
`date`, `type`, `start`, `end`, `speaker`, `title`, `synopsis`.
`end` is a Lean keyword, hence the field name `end_`. -/
structure Event where
  track : Option String
  date : Int
  type : String
  start : Int
  end_ : Int
  speaker : String
  title : String
  synopsis : String
deriving DecidableEq, Repr

/-- The four display modes returned by `compute_display_state`. -/
inductive Mode where
  | none
  | in_talk
  | pre_start
  | normal
deriving DecidableEq, Repr

/-- The result dict of `compute_display_state` (src/script.py lines
113-119): keys `mode`, `current`, `next_event`, `following_event`,
`seconds_to_start`. -/
structure DisplayState where
  mode : Mode
  current : Option Event
  next_event : Option Event
  following_event : Option Event
  seconds_to_start : Option Int
deriving DecidableEq, Repr

/-- Whether an event is in progress at `now`: the half-open interval test
`e['start'] <= now < e['end']` of src/script.py line 125. -/
def isCurrentAt (e : Event) (now : Int) : Prop :=
  e.start ≤ now ∧ now < e.end_

instance (e : Event) (now : Int) : Decidable (isCurrentAt e now) :=
  inferInstanceAs (Decidable (e.start ≤ now ∧ now < e.end_))

/-- The scan loop of `compute_display_state` (src/script.py lines 124-128)
restricted to the `current` accumulator: for each event in order,
`if e['start'] <= now < e['end']: current = e` (last match wins). -/
def currentScan (acc : Option Event) (schedule : List Event) (now : Int) :
    Option Event :=
  match schedule with
  | [] => acc
  | e :: rest =>
      currentScan (if isCurrentAt e now then some e else acc) rest now

/-- The `upcoming` list built by the same loop (src/script.py lines
127-128): all events with `start >= now`, in input order. -/
def upcomingOf (schedule : List Event) (now : Int) : List Event :=
  schedule.filter (fun e => decide (e.start ≥ now))

/-- Python's `s.strip().lower()` applied to the event type at
src/script.py line 170: drop whitespace from both ends of the character
data, then lowercase each character (ASCII lowering; the type strings the
program compares against are ASCII). -/
def stripLower (s : String) : String :=
  ⟨(((s.data.dropWhile Char.isWhitespace).reverse.dropWhile
      Char.isWhitespace).reverse).map Char.toLower⟩

/-- The all-`None` result returned when no current and no upcoming event
exists (src/script.py lines 134-141, and the defensive copy at 154-163). -/
def noneState : DisplayState :=
  ⟨Mode.none, Option.none, Option.none, Option.none, Option.none⟩

/-- `compute_display_state(schedule, now)` from src/script.py lines
110-182.  The Python control flow: build `current` (last-wins scan) and
`upcoming` (events with `start >= now`); `next_event = upcoming[0]`,
`following_event = upcoming[1]`; if neither current nor next exists return
the none state; if a current event exists return `in_talk` (with
`seconds_to_start = None`); otherwise `next_event` is present (the
defensive `None` branch at lines 154-163 is unreachable and coincides with
the first case), `seconds_to_start = next_event['start'] - now`, and the
mode is `pre_start` when the trimmed lowercased type is not in
`("break", "social")` and the delta is at most `5 * 60` seconds, else
`normal`; the returned `seconds_to_start` is clamped with `max(_, 0)`. -/
def compute_display_state (schedule : List Event) (now : Int) : DisplayState :=
  match currentScan Option.none schedule now, (upcomingOf schedule now).head? with
  | Option.none, Option.none => noneState
  | some c, nxt? =>
      ⟨Mode.in_talk, some c, nxt?, (upcomingOf schedule now).get? 1, Option.none⟩
  | Option.none, some nxt =>
      ⟨if ¬(stripLower nxt.type = "break" ∨ stripLower nxt.type = "social")
            ∧ nxt.start - now ≤ 5 * 60
          then Mode.pre_start else Mode.normal,
        Option.none, some nxt, (upcomingOf schedule now).get? 1,
        some (max (nxt.start - now) 0)⟩

/-- Zero-padded two-digit rendering of one `divmod` component, mirroring
the `f"{n:02d}"` format specifiers in `format_timedelta`
(src/script.py lines 192-193). -/
def pad2 (n : Nat) : String :=
  if n < 10 then "0" ++ toString n else toString n

/-- `format_timedelta(td)` from src/script.py lines 185-193, on a duration
of `td` whole seconds.  `int(td.total_seconds())` followed by the clamp
`if total < 0: total = 0` is `Int.toNat`; then
`hrs, rem = divmod(total, 3600)`, `mins, secs = divmod(rem, 60)`, and the
hour field is emitted only when `hrs` is nonzero (Python truthiness). -/
def format_timedelta (td : Int) : String :=
  let total : Nat := td.toNat
  let hrs : Nat := total / 3600
  let rem : Nat := total % 3600
  let mins : Nat := rem / 60
  let secs : Nat := rem % 60
  if hrs ≠ 0 then pad2 hrs ++ ":" ++ pad2 mins ++ ":" ++ pad2 secs
  else pad2 mins ++ ":" ++ pad2 secs

/-- The prominent minute warning computed in the `pre_start` branch of
`SpeakerDisplayApp.update` (src/script.py line 283):
`minutes_remaining = max((secs + 59) // 60, 0)`, where `secs` is the
state's `seconds_to_start` (or 0).  Python `//` is floor division, which
is `Int.fdiv`. -/
def minutes_remaining (secs : Int) : Int :=
  max (Int.fdiv (secs + 59) 60) 0

/-- Sample talk event used by witnesses: starts at 1000, ends at 1600. -/
def evTalk : Event :=
  ⟨Option.none, 0, "Talk", 1000, 1600, "Ada", "Types", "All about types"⟩

/-- Sample break event used by witnesses: starts at 1100, type "Break". -/
def evBreak : Event :=
  ⟨Option.none, 0, "Break", 1100, 1400, "", "Coffee", ""⟩

/-- Sample degenerate event used by witnesses: `end <= start`. -/
def evDeg : Event :=
  ⟨Option.none, 0, "Talk", 600, 600, "Bob", "Ghost slot", ""⟩

/-- Second sample talk, overlapping evTalk, used by the C3 witness. -/
def evTalk2 : Event :=
  ⟨Option.none, 0, "Workshop", 1100, 1700, "Eve", "Hands on", ""⟩

/-- Late event that is never current at the witness instants. -/
def evLate : Event :=
  ⟨Option.none, 0, "Talk", 5000, 5600, "Kim", "Closing", ""⟩

/-! ### Lemmas about the current-event scan -/

theorem currentScan_append (acc : Option Event) (l₁ l₂ : List Event)
    (now : Int) :
    currentScan acc (l₁ ++ l₂) now = currentScan (currentScan acc l₁ now) l₂ now := by
  induction l₁ generalizing acc with
  | nil => rfl
  | cons a t ih => simp only [List.cons_append, currentScan]; exact ih _

theorem currentScan_of_forall_not (now : Int) :
    ∀ (l : List Event) (acc : Option Event),
      (∀ f ∈ l, ¬ isCurrentAt f now) → currentScan acc l now = acc := by
  intro l
  induction l with
  | nil => intro acc _; rfl
  | cons a t ih =>
      intro acc h
      have ha : ¬ isCurrentAt a now := h a (List.mem_cons_self a t)
      simp only [currentScan, if_neg ha]
      exact ih acc (fun f hf => h f (List.mem_cons_of_mem a hf))

theorem currentScan_keep (e : Event) (now : Int) :
    ∀ l : List Event,
      (∀ f ∈ l, isCurrentAt f now → f = e) →
      currentScan (some e) l now = some e := by
  intro l
  induction l with
  | nil => intro _; rfl
  | cons a t ih =>
      intro h
      by_cases hc : isCurrentAt a now
      · have hae : a = e := h a (List.mem_cons_self a t) hc
        subst hae
        simp only [currentScan, if_pos hc]
        exact ih (fun f hf => h f (List.mem_cons_of_mem a hf))
      · simp only [currentScan, if_neg hc]
        exact ih (fun f hf => h f (List.mem_cons_of_mem a hf))

theorem currentScan_unique (e : Event) (now : Int) :
    ∀ (l : List Event) (acc : Option Event),
      e ∈ l → isCurrentAt e now →
      (∀ f ∈ l, isCurrentAt f now → f = e) →
      currentScan acc l now = some e := by
  intro l
  induction l with
  | nil => intro acc hmem _ _; exact absurd hmem (List.not_mem_nil e)
  | cons a t ih =>
      intro acc hmem hcur huniq
      by_cases hc : isCurrentAt a now
      · have hae : a = e := huniq a (List.mem_cons_self a t) hc
        subst hae
        simp only [currentScan, if_pos hc]
        exact currentScan_keep a now t
          (fun f hf => huniq f (List.mem_cons_of_mem a hf))
      · have het : e ∈ t := by
          rcases List.mem_cons.mp hmem with h | h
          · exact absurd (h ▸ hcur) hc
          · exact h
        simp only [currentScan, if_neg hc]
        exact ih acc het hcur (fun f hf => huniq f (List.mem_cons_of_mem a hf))

theorem currentScan_eq_some (now : Int) :
    ∀ (l : List Event) (acc : Option Event) (c : Event),
      currentScan acc l now = some c →
      acc = some c ∨ (c ∈ l ∧ isCurrentAt c now) := by
  intro l
  induction l with
  | nil => intro acc c h; exact Or.inl h
  | cons a t ih =>
      intro acc c h
      simp only [currentScan] at h
      rcases ih _ c h with hacc | ⟨hmem, hcur⟩
      · by_cases hc : isCurrentAt a now
        · rw [if_pos hc] at hacc
          have hac : a = c := Option.some.inj hacc
          exact Or.inr ⟨hac ▸ List.mem_cons_self a t, hac ▸ hc⟩
        · rw [if_neg hc] at hacc
          exact Or.inl hacc
      · exact Or.inr ⟨List.mem_cons_of_mem a hmem, hcur⟩

/-! ### Structural lemmas about compute_display_state -/

theorem compute_current_eq (schedule : List Event) (now : Int) :
    (compute_display_state schedule now).current =
      currentScan Option.none schedule now := by
  unfold compute_display_state
  cases hc : currentScan Option.none schedule now <;>
    cases hu : (upcomingOf schedule now).head? <;> rfl

theorem compute_next_eq (schedule : List Event) (now : Int) :
    (compute_display_state schedule now).next_event =
      (upcomingOf schedule now).head? := by
  unfold compute_display_state
  cases hc : currentScan Option.none schedule now <;>
    cases hu : (upcomingOf schedule now).head? <;> rfl

theorem compute_following_eq (schedule : List Event) (now : Int) :
    (compute_display_state schedule now).following_event =
      (upcomingOf schedule now).get? 1 := by
  unfold compute_display_state
  cases hc : currentScan Option.none schedule now <;>
    cases hu : (upcomingOf schedule now).head?
  · have : upcomingOf schedule now = [] := List.head?_eq_none_iff.mp hu
    simp [noneState, this]
  · rfl
  · rfl
  · rfl

theorem head?_filter_eq_find? {α : Type} (p : α → Bool) :
    ∀ l : List α, (l.filter p).head? = l.find? p := by
  intro l
  induction l with
  | nil => rfl
  | cons a t ih =>
      by_cases h : p a
      · simp [List.filter_cons, List.find?_cons, h]
      · simp only [List.filter_cons, List.find?_cons] at *
        simp [h, ih]

/-- The schedule invariant stated in the spec: events sorted ascending by
`start` (the loader ends with `schedule.sort(key=lambda e: e['start'])`). -/
def sortedByStart (l : List Event) : Prop :=
  List.Pairwise (fun a b => a.start ≤ b.start) l

instance (l : List Event) : Decidable (sortedByStart l) :=
  inferInstanceAs (Decidable (List.Pairwise _ l))

theorem compute_of_some (schedule : List Event) (now : Int) (c : Event)
    (hc : currentScan Option.none schedule now = some c) :
    compute_display_state schedule now =
      ⟨Mode.in_talk, some c, (upcomingOf schedule now).head?,
        (upcomingOf schedule now).get? 1, Option.none⟩ := by
  unfold compute_display_state
  rw [hc]

theorem compute_of_none_none (schedule : List Event) (now : Int)
    (hc : currentScan Option.none schedule now = Option.none)
    (hu : (upcomingOf schedule now).head? = Option.none) :
    compute_display_state schedule now = noneState := by
  unfold compute_display_state
  rw [hc, hu]

theorem compute_of_none_some (schedule : List Event) (now : Int) (nxt : Event)
    (hc : currentScan Option.none schedule now = Option.none)
    (hu : (upcomingOf schedule now).head? = some nxt) :
    compute_display_state schedule now =
      ⟨if ¬(stripLower nxt.type = "break" ∨ stripLower nxt.type = "social")
            ∧ nxt.start - now ≤ 5 * 60
          then Mode.pre_start else Mode.normal,
        Option.none, some nxt, (upcomingOf schedule now).get? 1,
        some (max (nxt.start - now) 0)⟩ := by
  unfold compute_display_state
  rw [hc, hu]

/-- Event starting exactly at the witness instant, used by the C10 witness. -/
def evNow : Event :=
  ⟨Option.none, 0, "Talk", 2000, 2600, "", "Live", ""⟩

/-! ### The claims -/

/-- C1: for every sorted schedule and timestamp `now` such that exactly one
event `e` satisfies `e.start <= now < e.end` (no other event overlaps
`now`), `compute_display_state` returns mode `in_talk` with `current = e`
and `seconds_to_start` null, regardless of whether any upcoming event also
exists. -/
theorem claim_C1 (schedule : List Event) (now : Int) (e : Event)
    (hsorted : sortedByStart schedule)
    (hmem : e ∈ schedule) (hcur : isCurrentAt e now)
    (huniq : ∀ f ∈ schedule, isCurrentAt f now → f = e) :
    (compute_display_state schedule now).mode = Mode.in_talk ∧
    (compute_display_state schedule now).current = some e ∧
    (compute_display_state schedule now).seconds_to_start = Option.none := by
  have hc : currentScan Option.none schedule now = some e :=
    currentScan_unique e now schedule Option.none hmem hcur huniq
  rw [compute_of_some schedule now e hc]
  exact ⟨rfl, rfl, rfl⟩

theorem claim_C1_witness :
    (compute_display_state [evTalk, evLate] 1200).mode = Mode.in_talk ∧
    (compute_display_state [evTalk, evLate] 1200).current = some evTalk ∧
    (compute_display_state [evTalk, evLate] 1200).seconds_to_start = Option.none :=
  claim_C1 [evTalk, evLate] 1200 evTalk (by decide) (by decide) (by decide)
    (by decide)

/-- C3: when two or more events are simultaneously current (both satisfy
`start <= now < end`), `compute_display_state` selects as `current` the
event encountered last while scanning the schedule in its input order
(last-wins overwrite), not the first match. -/
theorem claim_C3 (l₁ l₂ : List Event) (e : Event) (now : Int)
    (hsorted : sortedByStart (l₁ ++ e :: l₂))
    (hover : ∃ f ∈ l₁, isCurrentAt f now)
    (hcur : isCurrentAt e now)
    (hafter : ∀ f ∈ l₂, ¬ isCurrentAt f now) :
    (compute_display_state (l₁ ++ e :: l₂) now).mode = Mode.in_talk ∧
    (compute_display_state (l₁ ++ e :: l₂) now).current = some e := by
  have hc : currentScan Option.none (l₁ ++ e :: l₂) now = some e := by
    rw [currentScan_append]
    show currentScan _ (e :: l₂) now = some e
    simp only [currentScan, if_pos hcur]
    exact currentScan_of_forall_not now l₂ (some e) hafter
  rw [compute_of_some _ now e hc]
  exact ⟨rfl, rfl⟩

theorem claim_C3_witness :
    (compute_display_state ([evTalk] ++ evTalk2 :: [evLate]) 1200).mode =
      Mode.in_talk ∧
    (compute_display_state ([evTalk] ++ evTalk2 :: [evLate]) 1200).current =
      some evTalk2 :=
  claim_C3 [evTalk] [evLate] evTalk2 1200 (by decide)
    ⟨evTalk, by decide, by decide⟩ (by decide) (by decide)

/-- C4: `compute_display_state` is total (a Lean function): on the empty
schedule it returns the all-null `none` state, and whenever no event is
current and no event has `start >= now` it returns the all-null `none`
state as well. -/
theorem claim_C4 (schedule : List Event) (now : Int) :
    compute_display_state [] now = noneState ∧
    ((∀ e ∈ schedule, ¬ isCurrentAt e now) →
      (∀ e ∈ schedule, ¬ e.start ≥ now) →
      compute_display_state schedule now = noneState) := by
  refine ⟨rfl, ?_⟩
  intro h1 h2
  have hc : currentScan Option.none schedule now = Option.none :=
    currentScan_of_forall_not now schedule Option.none h1
  have hup : upcomingOf schedule now = [] := by
    simp only [upcomingOf, List.filter_eq_nil_iff, decide_eq_true_eq]
    exact h2
  exact compute_of_none_none schedule now hc (by rw [hup]; rfl)

theorem claim_C4_witness :
    compute_display_state [evTalk] 9999 = noneState :=
  (claim_C4 [evTalk] 9999).2 (by decide) (by decide)

/-- C5: an event `e` with `e.end <= e.start` (degenerate duration) is never
selected as `current` by `compute_display_state` for any schedule and any
`now`; yet it still enters the upcoming list whenever `e.start >= now`,
and, for instance, is returned as `next_event` when it is the schedule's
only event and lies at or after `now`. -/
theorem claim_C5 (e : Event) (hdeg : e.end_ ≤ e.start)
    (schedule : List Event) (now : Int) :
    (compute_display_state schedule now).current ≠ some e ∧
    (e ∈ schedule → e.start ≥ now → e ∈ upcomingOf schedule now) ∧
    (e.start ≥ now → (compute_display_state [e] now).next_event = some e) := by
  refine ⟨?_, ?_, ?_⟩
  · intro hcontra
    rw [compute_current_eq] at hcontra
    rcases currentScan_eq_some now schedule Option.none e hcontra with
      hacc | ⟨_, h1, h2⟩
    · exact Option.noConfusion hacc
    · omega
  · intro hmem hge
    exact List.mem_filter.mpr ⟨hmem, by simpa using hge⟩
  · intro hge
    rw [compute_next_eq]
    have hup : upcomingOf [e] now = [e] := by
      simp [upcomingOf, List.filter_cons, hge]
    rw [hup]
    rfl

theorem claim_C5_witness :
    (compute_display_state [evDeg] 500).current ≠ some evDeg ∧
    evDeg ∈ upcomingOf [evDeg] 500 ∧
    (compute_display_state [evDeg] 500).next_event = some evDeg := by
  have h := claim_C5 evDeg (by decide) [evDeg] 500
  exact ⟨h.1, h.2.1 (by decide) (by decide), h.2.2 (by decide)⟩

/-- C2: with no current event and at least one event with `start >= now`
(its first such event being `nxt`), `compute_display_state` returns mode
`pre_start` if and only if `nxt`'s type, trimmed and lowercased, is
neither "break" nor "social" and the whole-second delta to its start is at
most 300 (boundary included); otherwise the mode is `normal` — in
particular one of the two modes is always returned. -/
theorem claim_C2 (schedule : List Event) (now : Int)
    (hsorted : sortedByStart schedule)
    (hnocur : ∀ f ∈ schedule, ¬ isCurrentAt f now)
    (nxt : Event) (hnxt : (upcomingOf schedule now).head? = some nxt) :
    ((compute_display_state schedule now).mode = Mode.pre_start ↔
      (¬(stripLower nxt.type = "break" ∨ stripLower nxt.type = "social") ∧
        nxt.start - now ≤ 300)) ∧
    ((compute_display_state schedule now).mode = Mode.pre_start ∨
      (compute_display_state schedule now).mode = Mode.normal) := by
  have hc : currentScan Option.none schedule now = Option.none :=
    currentScan_of_forall_not now schedule Option.none hnocur
  rw [compute_of_none_some schedule now nxt hc hnxt]
  have h300 : ((5 : Int) * 60) = 300 := by norm_num
  by_cases hcond :
      ¬(stripLower nxt.type = "break" ∨ stripLower nxt.type = "social") ∧
        nxt.start - now ≤ 300
  · rw [show (⟨if ¬(stripLower nxt.type = "break" ∨
          stripLower nxt.type = "social") ∧ nxt.start - now ≤ 5 * 60
        then Mode.pre_start else Mode.normal, Option.none, some nxt,
        (upcomingOf schedule now).get? 1,
        some (max (nxt.start - now) 0)⟩ : DisplayState).mode =
        if ¬(stripLower nxt.type = "break" ∨
          stripLower nxt.type = "social") ∧ nxt.start - now ≤ 5 * 60
        then Mode.pre_start else Mode.normal from rfl]
    rw [h300, if_pos hcond]
    exact ⟨⟨fun _ => hcond, fun _ => rfl⟩, Or.inl rfl⟩
  · rw [show (⟨if ¬(stripLower nxt.type = "break" ∨
          stripLower nxt.type = "social") ∧ nxt.start - now ≤ 5 * 60
        then Mode.pre_start else Mode.normal, Option.none, some nxt,
        (upcomingOf schedule now).get? 1,
        some (max (nxt.start - now) 0)⟩ : DisplayState).mode =
        if ¬(stripLower nxt.type = "break" ∨
          stripLower nxt.type = "social") ∧ nxt.start - now ≤ 5 * 60
        then Mode.pre_start else Mode.normal from rfl]
    rw [h300, if_neg hcond]
    exact ⟨⟨fun h => absurd h (by simp), fun h => absurd h hcond⟩, Or.inr rfl⟩

theorem claim_C2_witness :
    (((compute_display_state [evBreak, evLate] 1000).mode = Mode.pre_start) ↔
      (¬(stripLower evBreak.type = "break" ∨
          stripLower evBreak.type = "social") ∧
        evBreak.start - 1000 ≤ 300)) ∧
    ((compute_display_state [evBreak, evLate] 1000).mode = Mode.pre_start ∨
      (compute_display_state [evBreak, evLate] 1000).mode = Mode.normal) :=
  claim_C2 [evBreak, evLate] 1000 (by decide) (by decide) evBreak (by decide)

/-- C6: mode-indexed field invariant of every result of
`compute_display_state`: in modes `pre_start` and `normal`, `current` is
null, `next_event` is the first schedule event with `start >= now`,
`following_event` is the second element of the upcoming list, and
`seconds_to_start` is the whole-second difference `next_event.start - now`
clamped to be nonnegative; in modes `in_talk` and `none`,
`seconds_to_start` is null; in mode `none` all event fields are null. -/
theorem claim_C6 (schedule : List Event) (now : Int) :
    (((compute_display_state schedule now).mode = Mode.pre_start ∨
        (compute_display_state schedule now).mode = Mode.normal) →
      (compute_display_state schedule now).current = Option.none ∧
      (compute_display_state schedule now).next_event =
        schedule.find? (fun e => decide (e.start ≥ now)) ∧
      (compute_display_state schedule now).following_event =
        (upcomingOf schedule now).get? 1 ∧
      ∃ nxt, (compute_display_state schedule now).next_event = some nxt ∧
        (compute_display_state schedule now).seconds_to_start =
          some (max (nxt.start - now) 0)) ∧
    (((compute_display_state schedule now).mode = Mode.in_talk ∨
        (compute_display_state schedule now).mode = Mode.none) →
      (compute_display_state schedule now).seconds_to_start = Option.none) ∧
    ((compute_display_state schedule now).mode = Mode.none →
      (compute_display_state schedule now).current = Option.none ∧
      (compute_display_state schedule now).next_event = Option.none ∧
      (compute_display_state schedule now).following_event = Option.none) := by
  have hfind : (upcomingOf schedule now).head? =
      schedule.find? (fun e => decide (e.start ≥ now)) :=
    head?_filter_eq_find? _ schedule
  cases hc : currentScan Option.none schedule now with
  | none =>
      cases hu : (upcomingOf schedule now).head? with
      | none =>
          rw [compute_of_none_none schedule now hc hu]
          refine ⟨fun hmode => ?_, fun _ => rfl, fun _ => ⟨rfl, rfl, rfl⟩⟩
          rcases hmode with h | h <;> exact absurd h (by simp [noneState])
      | some nxt =>
          by_cases hcond :
              ¬(stripLower nxt.type = "break" ∨
                  stripLower nxt.type = "social") ∧
                nxt.start - now ≤ 5 * 60
          · rw [compute_of_none_some schedule now nxt hc hu, if_pos hcond]
            refine ⟨fun _ => ⟨rfl, ?_, rfl, nxt, rfl, rfl⟩, fun hmode => ?_,
              fun hmode => ?_⟩
            · rw [← hfind, hu]
            · rcases hmode with h | h <;> exact Mode.noConfusion h
            · exact Mode.noConfusion hmode
          · rw [compute_of_none_some schedule now nxt hc hu, if_neg hcond]
            refine ⟨fun _ => ⟨rfl, ?_, rfl, nxt, rfl, rfl⟩, fun hmode => ?_,
              fun hmode => ?_⟩
            · rw [← hfind, hu]
            · rcases hmode with h | h <;> exact Mode.noConfusion h
            · exact Mode.noConfusion hmode
  | some c =>
      rw [compute_of_some schedule now c hc]
      refine ⟨fun hmode => ?_, fun _ => rfl, fun hmode => ?_⟩
      · rcases hmode with h | h <;> exact absurd h (by simp)
      · exact absurd hmode (by simp)

theorem claim_C6_witness :
    (compute_display_state [evBreak] 1000).current = Option.none ∧
    (compute_display_state [evBreak] 1000).seconds_to_start = some 100 := by
  have h := claim_C6 [evBreak] 1000
  refine ⟨(h.1 (Or.inr (by decide))).1, ?_⟩
  rcases (h.1 (Or.inr (by decide))).2.2.2 with ⟨nxt, hnxt, hsec⟩
  have : nxt = evBreak := by
    have hcalc : (compute_display_state [evBreak] 1000).next_event =
        some evBreak := by decide
    rw [hcalc] at hnxt
    exact (Option.some.inj hnxt).symm
  rw [hsec, this]
  decide

/-- C10: when some event `e` has `e.start = now < e.end` and no event other
than `e` is current, `compute_display_state` returns `in_talk` (taking
precedence over `pre_start` at the boundary) with `current = e`; moreover
`e` also lands in the upcoming list, and when `e` is the earliest event
with `start >= now` the result's `next_event` equals the same event as
`current`. -/
theorem claim_C10 (schedule : List Event) (now : Int) (e : Event)
    (hsorted : sortedByStart schedule)
    (hmem : e ∈ schedule) (hstart : e.start = now) (hend : now < e.end_)
    (huniq : ∀ f ∈ schedule, isCurrentAt f now → f = e) :
    (compute_display_state schedule now).mode = Mode.in_talk ∧
    (compute_display_state schedule now).current = some e ∧
    e ∈ upcomingOf schedule now ∧
    ((upcomingOf schedule now).head? = some e →
      (compute_display_state schedule now).next_event = some e ∧
      (compute_display_state schedule now).next_event =
        (compute_display_state schedule now).current) := by
  have hcur : isCurrentAt e now := ⟨le_of_eq hstart, hend⟩
  have hc : currentScan Option.none schedule now = some e :=
    currentScan_unique e now schedule Option.none hmem hcur huniq
  rw [compute_of_some schedule now e hc]
  refine ⟨rfl, rfl, ?_, fun hh => ⟨hh, hh⟩⟩
  exact List.mem_filter.mpr ⟨hmem, by simp [hstart]⟩

theorem claim_C10_witness :
    (compute_display_state [evNow] 2000).mode = Mode.in_talk ∧
    (compute_display_state [evNow] 2000).current = some evNow ∧
    evNow ∈ upcomingOf [evNow] 2000 ∧
    (compute_display_state [evNow] 2000).next_event = some evNow := by
  have h := claim_C10 [evNow] 2000 evNow (by decide) (by decide) (by decide)
    (by decide) (by decide)
  exact ⟨h.1, h.2.1, h.2.2.1, (h.2.2.2 (by decide)).1⟩

/-- C7: the prominent minute warning rounds the remaining seconds up to the
next whole minute: 299 seconds gives a 5-minute warning, 240 a 4-minute
warning, 1 a 1-minute warning, exactly 0 gives 0, and the warning never
reads 0 while the remaining seconds are positive. -/
theorem claim_C7 :
    minutes_remaining 299 = 5 ∧ minutes_remaining 240 = 4 ∧
    minutes_remaining 1 = 1 ∧ minutes_remaining 0 = 0 ∧
    ∀ s : Int, 0 < s → 1 ≤ minutes_remaining s := by
  refine ⟨by decide, by decide, by decide, by decide, ?_⟩
  intro s hs
  unfold minutes_remaining
  rw [Int.fdiv_eq_ediv _ (by norm_num : (0 : Int) ≤ 60)]
  have h1 : (1 : Int) ≤ (s + 59) / 60 := by omega
  exact le_max_of_le_left h1

theorem claim_C7_witness :
    (0 : Int) < 42 ∧ 1 ≤ minutes_remaining 42 :=
  ⟨by decide, claim_C7.2.2.2.2 42 (by decide)⟩

/-- C8: `format_timedelta` clamps negative durations to zero and omits the
hour field exactly when the hour component is zero: 0 seconds gives
"00:00", 65 gives "01:05", 3661 gives "01:01:01", and every negative
input gives "00:00". -/
theorem claim_C8 :
    format_timedelta 0 = "00:00" ∧ format_timedelta 65 = "01:05" ∧
    format_timedelta 3661 = "01:01:01" ∧
    ∀ t : Int, t < 0 → format_timedelta t = "00:00" := by
  refine ⟨by decide, by decide, by decide, ?_⟩
  intro t ht
  have h0 : t.toNat = 0 := Int.toNat_of_nonpos ht.le
  unfold format_timedelta
  rw [h0]
  rfl

theorem claim_C8_witness :
    format_timedelta (-5) = "00:00" :=
  claim_C8.2.2.2 (-5) (by decide)

/-- C9: two calls of `compute_display_state` with identical arguments yield
equal results, and the schedule alongside the result is the unchanged
input list: the engine is embedded as a pure function because its source
only reads the schedule (the loop at src/script.py lines 124-128 mutates
neither the list nor its events). -/
theorem claim_C9 (schedule : List Event) (now : Int) :
    (compute_display_state schedule now, schedule) =
      (compute_display_state schedule now, schedule) := rfl
